import Mathlib

/-!
Verification of the Query Builder Options Engine of the clickhouse-datasource
repository, shallowly embedded from
`src/components/queryBuilder/views/LogsQueryBuilder.tsx` and the Table query
builder view. Option types of the TypeScript interfaces become `Option` fields;
JavaScript truthiness defaults (`x || d`) are translated faithfully. Parts of
the engine that the presented components only call (the option-change hook, the
default-inference hooks, the option-state reducer, the limit editor) are
modelled from the specification, marked by doc comments.
-/

namespace CHQB

/-- Semantic column hints. Modelled from the spec: the `ColumnHint` enum of
`types/queryBuilder` is not among the presented sources; the spec names the
hints Time, LogLevel and LogMessage (time axis, log severity, log body). -/
inductive ColumnHint where
  | time
  | logLevel
  | logMessage
deriving DecidableEq, Repr

/-- A selected column: source column name, optional display alias, optional
semantic hint (spec section 3, `SelectedColumn`). -/
structure SelectedColumn where
  name : String
  columnAlias : Option String
  hint : Option ColumnHint
deriving DecidableEq, Repr

/-- An aggregate column: function name, target column, optional alias
(spec section 3, `AggregateColumn`). -/
structure AggregateColumn where
  aggregateKind : String
  column : String
  columnAlias : Option String
deriving DecidableEq, Repr

/-- A filter row: column reference, comparison operator, operand text and the
boolean combinator with the previous filter (spec section 3, `Filter`). The
builder components treat filters opaquely. -/
structure Filter where
  key : String
  operator : String
  operand : String
  condition : String
deriving DecidableEq, Repr

/-- An ordering entry: column or aggregate reference plus direction
(true = ascending). The builder components treat orderings opaquely. -/
structure OrderBy where
  name : String
  ascending : Bool
deriving DecidableEq, Repr

/-- Builder mode, from `types/queryBuilder` as used by the Table view:
flat listing vs. aggregated. -/
inductive BuilderMode where
  | list
  | aggregate
deriving DecidableEq, Repr

/-- Mode-specific metadata flags: the log-schema-convention (OTEL) flag and
convention version (spec section 3, `meta`). Fields are optional as in the
TypeScript interface. -/
structure BuilderMeta where
  otelEnabled : Option Bool
  otelVersion : Option String
deriving DecidableEq, Repr

/-- The Option Model (`QueryBuilderOptions`): the canonical structure for one
query under construction. Optional TypeScript fields become `Option`. -/
structure QueryBuilderOptions where
  mode : BuilderMode
  database : String
  table : String
  columns : Option (List SelectedColumn)
  aggregates : Option (List AggregateColumn)
  groupBy : Option (List String)
  filters : Option (List Filter)
  orderBy : Option (List OrderBy)
  limit : Option Int
  meta : Option BuilderMeta
deriving DecidableEq, Repr

/-- JavaScript `x || 0` on an optional number: `undefined` and `0` are falsy. -/
def jsOrZero : Option Int → Int
  | none => 0
  | some v => if v = 0 then 0 else v

/-- Modelled from the spec: `getColumnByHint` (from `data/sqlGenerator`, not
among the presented sources) looks up the column carrying a given semantic
hint in the Option Model; with hints unique this is the first (and only)
match in column order. -/
def getColumnByHint (options : QueryBuilderOptions) (hint : ColumnHint) : Option SelectedColumn :=
  (options.columns.getD []).find? (fun c => c.hint == some hint)

/-- The Logs builder's editable state shape (`LogsQueryBuilderState`,
LogsQueryBuilder.tsx lines 26-37). -/
structure LogsQueryBuilderState where
  otelEnabled : Bool
  otelVersion : String
  selectedColumns : List SelectedColumn
  timeColumn : Option SelectedColumn
  logLevelColumn : Option SelectedColumn
  messageColumn : Option SelectedColumn
  orderBy : List OrderBy
  limit : Int
  filters : List Filter
deriving DecidableEq, Repr

/-- Whether a column carries one of the three log hints: such columns are
excluded from the editable column list because they have their own box
(LogsQueryBuilder.tsx lines 50-55). -/
def hasLogHint (c : SelectedColumn) : Bool :=
  c.hint == some ColumnHint.time ||
  c.hint == some ColumnHint.logLevel ||
  c.hint == some ColumnHint.logMessage

/-- Decomposition of the Option Model into the Logs builder's editable state
(`builderState`, LogsQueryBuilder.tsx lines 44-60). -/
def logsBuilderState (o : QueryBuilderOptions) : LogsQueryBuilderState :=
  { otelEnabled := ((o.meta.bind (fun m => m.otelEnabled)).getD false)
    otelVersion := ((o.meta.bind (fun m => m.otelVersion)).getD "")
    timeColumn := getColumnByHint o ColumnHint.time
    logLevelColumn := getColumnByHint o ColumnHint.logLevel
    messageColumn := getColumnByHint o ColumnHint.logMessage
    selectedColumns := (o.columns.getD []).filter (fun c => !(hasLogHint c))
    filters := o.filters.getD []
    orderBy := o.orderBy.getD []
    limit := jsOrZero o.limit }

/-- Render an optional column as a zero-or-one-element list: the commit
mapping pushes each present hinted column onto the column list. -/
def pushOpt (c : Option SelectedColumn) : List SelectedColumn :=
  match c with
  | some col => [col]
  | none => []

/-- The Logs builder's commit mapping (`onOptionChange` body,
LogsQueryBuilder.tsx lines 63-80): reassemble `columns` from the editable
list plus the three hinted slots, then commit columns, filters, orderBy and
limit into the Option Model. The `setOptions` reducer action
(`hooks/useBuilderOptionsState`, not among the presented sources) is
modelled from the spec: it merges exactly the given fields into the model,
leaving unmentioned fields unchanged. -/
def commitLogsOptions (prev : QueryBuilderOptions) (next : LogsQueryBuilderState) : QueryBuilderOptions :=
  let nextColumns := next.selectedColumns
    ++ pushOpt next.timeColumn
    ++ pushOpt next.logLevelColumn
    ++ pushOpt next.messageColumn
  { prev with
    columns := some nextColumns
    filters := some next.filters
    orderBy := some next.orderBy
    limit := some next.limit }

/-- The Table builder's editable state shape (`TableQueryBuilderState`,
Table view lines 22-29). -/
structure TableQueryBuilderState where
  selectedColumns : List SelectedColumn
  aggregates : List AggregateColumn
  groupBy : List String
  orderBy : List OrderBy
  limit : Int
  filters : List Filter
deriving DecidableEq, Repr

/-- Decomposition of the Option Model into the Table builder's editable state
(`builderState`, Table view lines 36-43). -/
def tableBuilderState (o : QueryBuilderOptions) : TableQueryBuilderState :=
  { selectedColumns := o.columns.getD []
    aggregates := o.aggregates.getD []
    groupBy := o.groupBy.getD []
    orderBy := o.orderBy.getD []
    limit := jsOrZero o.limit
    filters := o.filters.getD [] }

/-- The Table builder's commit mapping (`onOptionChange` body, Table view
lines 45-55): commits mode, columns, aggregates, groupBy, filters, orderBy
and limit; outside Aggregate mode the committed aggregates and groupBy are
empty. The `setOptions` merge is modelled from the spec as for the Logs
builder. -/
def commitTableOptions (isAggregateMode : Bool) (prev : QueryBuilderOptions) (next : TableQueryBuilderState) : QueryBuilderOptions :=
  { prev with
    mode := if isAggregateMode then BuilderMode.aggregate else BuilderMode.list
    columns := some next.selectedColumns
    aggregates := some (if isAggregateMode then next.aggregates else [])
    groupBy := some (if isAggregateMode then next.groupBy else [])
    filters := some next.filters
    orderBy := some next.orderBy
    limit := some next.limit }

/-- The Table builder's initial mode flag at mount (Table view line 35):
`(builderOptions.aggregates?.length || 0) > 0`. -/
def initialAggregateMode (o : QueryBuilderOptions) : Bool :=
  decide (0 < (match o.aggregates with
    | some l => l.length
    | none => 0))

/-- A named partial-field update of the Logs builder state: one constructor
per field of `LogsQueryBuilderState`, carrying the new value. Modelled from
the spec: `useBuilderOptionChanges` (`hooks/useBuilderOptionChanges`, not
among the presented sources) exposes one setter per field of the mode's
state shape. -/
inductive LogsFieldUpdate where
  | setOtelEnabledField (v : Bool)
  | setOtelVersionField (v : String)
  | setSelectedColumns (v : List SelectedColumn)
  | setTimeColumn (v : Option SelectedColumn)
  | setLogLevelColumn (v : Option SelectedColumn)
  | setMessageColumn (v : Option SelectedColumn)
  | setOrderBy (v : List OrderBy)
  | setLimit (v : Int)
  | setFilters (v : List Filter)
deriving DecidableEq, Repr

/-- Apply one named partial update to the Logs builder state: exactly the
named field changes. -/
def applyLogsUpdate (s : LogsQueryBuilderState) : LogsFieldUpdate → LogsQueryBuilderState
  | LogsFieldUpdate.setOtelEnabledField v => { s with otelEnabled := v }
  | LogsFieldUpdate.setOtelVersionField v => { s with otelVersion := v }
  | LogsFieldUpdate.setSelectedColumns v => { s with selectedColumns := v }
  | LogsFieldUpdate.setTimeColumn v => { s with timeColumn := v }
  | LogsFieldUpdate.setLogLevelColumn v => { s with logLevelColumn := v }
  | LogsFieldUpdate.setMessageColumn v => { s with messageColumn := v }
  | LogsFieldUpdate.setOrderBy v => { s with orderBy := v }
  | LogsFieldUpdate.setLimit v => { s with limit := v }
  | LogsFieldUpdate.setFilters v => { s with filters := v }

/-- Modelled from the spec: the Change Reconciler
(`useBuilderOptionChanges`) merges the queue of named partial updates fired
within one tick into the pre-batch snapshot, in order, before committing
once. -/
def applyLogsBatch (s : LogsQueryBuilderState) (us : List LogsFieldUpdate) : LogsQueryBuilderState :=
  us.foldl applyLogsUpdate s

/-- The last value written for a given field in a batch, where `f` extracts
that field's payload from an update: the last match in the list, if any. -/
def lastWritten {α : Type} (f : LogsFieldUpdate → Option α) : List LogsFieldUpdate → Option α
  | [] => none
  | u :: us =>
    match lastWritten f us with
    | some v => some v
    | none => f u

/-- Payload extractor for the limit field. -/
def updLimit : LogsFieldUpdate → Option Int
  | LogsFieldUpdate.setLimit v => some v
  | _ => none

/-- Payload extractor for the filters field. -/
def updFilters : LogsFieldUpdate → Option (List Filter)
  | LogsFieldUpdate.setFilters v => some v
  | _ => none

/-- Payload extractor for the orderBy field. -/
def updOrderBy : LogsFieldUpdate → Option (List OrderBy)
  | LogsFieldUpdate.setOrderBy v => some v
  | _ => none

/-- Payload extractor for the selected-columns field. -/
def updSelectedColumns : LogsFieldUpdate → Option (List SelectedColumn)
  | LogsFieldUpdate.setSelectedColumns v => some v
  | _ => none

/-- Payload extractor for the time-column field. -/
def updTimeColumn : LogsFieldUpdate → Option (Option SelectedColumn)
  | LogsFieldUpdate.setTimeColumn v => some v
  | _ => none

/-- Payload extractor for the log-level-column field. -/
def updLogLevelColumn : LogsFieldUpdate → Option (Option SelectedColumn)
  | LogsFieldUpdate.setLogLevelColumn v => some v
  | _ => none

/-- Payload extractor for the message-column field. -/
def updMessageColumn : LogsFieldUpdate → Option (Option SelectedColumn)
  | LogsFieldUpdate.setMessageColumn v => some v
  | _ => none

/-- Payload extractor for the OTEL-enabled field. -/
def updOtelEnabled : LogsFieldUpdate → Option Bool
  | LogsFieldUpdate.setOtelEnabledField v => some v
  | _ => none

/-- Payload extractor for the OTEL-version field. -/
def updOtelVersion : LogsFieldUpdate → Option String
  | LogsFieldUpdate.setOtelVersionField v => some v
  | _ => none

/-- Two column entries never share a semantic hint when the first is
unhinted or their hints differ. -/
def hintDistinct (a b : SelectedColumn) : Prop :=
  a.hint = none ∨ a.hint ≠ b.hint

instance (a b : SelectedColumn) : Decidable (hintDistinct a b) :=
  inferInstanceAs (Decidable (_ ∨ _))

/-- Hint uniqueness of a column sequence: no two entries carry the same
semantic hint (spec section 3 invariant). -/
def noDuplicateHints (cols : List SelectedColumn) : Prop :=
  cols.Pairwise hintDistinct

instance (cols : List SelectedColumn) : Decidable (noDuplicateHints cols) :=
  List.instDecidablePairwise cols

/-- Well-formedness of editor payloads. Modelled from the spec: the
editable-column editor (`ColumnsEditor`, not among the presented sources)
edits only the unhinted column list, and each single-column select
(`ColumnSelect`, not among the presented sources) is bound to its
designated hint, so the value it writes carries that hint. -/
def LogsUpdateOk : LogsFieldUpdate → Prop
  | LogsFieldUpdate.setSelectedColumns cs => ∀ c ∈ cs, c.hint = none
  | LogsFieldUpdate.setTimeColumn oc => ∀ c, oc = some c → c.hint = some ColumnHint.time
  | LogsFieldUpdate.setLogLevelColumn oc => ∀ c, oc = some c → c.hint = some ColumnHint.logLevel
  | LogsFieldUpdate.setMessageColumn oc => ∀ c, oc = some c → c.hint = some ColumnHint.logMessage
  | _ => True

instance (u : LogsFieldUpdate) : Decidable (LogsUpdateOk u) :=
  match u with
  | LogsFieldUpdate.setSelectedColumns cs =>
      inferInstanceAs (Decidable (∀ c ∈ cs, c.hint = none))
  | LogsFieldUpdate.setTimeColumn oc =>
      inferInstanceAs (Decidable (∀ c, oc = some c → c.hint = some ColumnHint.time))
  | LogsFieldUpdate.setLogLevelColumn oc =>
      inferInstanceAs (Decidable (∀ c, oc = some c → c.hint = some ColumnHint.logLevel))
  | LogsFieldUpdate.setMessageColumn oc =>
      inferInstanceAs (Decidable (∀ c, oc = some c → c.hint = some ColumnHint.logMessage))
  | LogsFieldUpdate.setOtelEnabledField _ => inferInstanceAs (Decidable True)
  | LogsFieldUpdate.setOtelVersionField _ => inferInstanceAs (Decidable True)
  | LogsFieldUpdate.setOrderBy _ => inferInstanceAs (Decidable True)
  | LogsFieldUpdate.setLimit _ => inferInstanceAs (Decidable True)
  | LogsFieldUpdate.setFilters _ => inferInstanceAs (Decidable True)

/-- A concrete Option Model used to instantiate the general theorems. -/
def sampleOptions : QueryBuilderOptions :=
  { mode := BuilderMode.list
    database := "default"
    table := "logs"
    columns := some [⟨"ts", none, some ColumnHint.time⟩, ⟨"body", none, some ColumnHint.logMessage⟩,
      ⟨"host", none, none⟩]
    aggregates := none
    groupBy := none
    filters := none
    orderBy := none
    limit := some 100
    meta := none }

/-- Modelled from the spec: the limit editor (`LimitEditor`, not among the
presented sources) is the boundary at which a user-entered limit is
clamped — the limit floors at 0 rather than being rejected — before the
field setter is invoked. -/
def clampLimit (v : Int) : Int := max v 0

/-- Modelled from the spec: the log-schema-convention (OTEL) version table
(used by `useOtelColumns` in `logsQueryBuilderHooks`, not among the
presented sources). Each known convention version fixes the column names
filling the Time, LogLevel and LogMessage roles; the excerpt leaves the
exact mapping unspecified, so one known version is modelled. -/
def otelVersionColumns : String → Option (String × String × String)
  | "v1" => some ("Timestamp", "SeverityText", "Body")
  | _ => none

/-- Modelled from the spec: the schema-convention column rule
(`useOtelColumns`): when the convention flag is enabled and the version is
known, it replaces the Time/LogLevel/LogMessage-hinted columns of the
Option Model with the convention's fixed column names for that version,
overwriting any previously hinted columns for those three hints; with the
flag disabled or the version unknown it proposes nothing. -/
def applyOtelColumnsRule (enabled : Bool) (version : String) (o : QueryBuilderOptions) : QueryBuilderOptions :=
  if enabled then
    match otelVersionColumns version with
    | some (t, l, m) =>
      { o with columns := some (((o.columns.getD []).filter (fun c => !(hasLogHint c)))
          ++ [⟨t, none, some ColumnHint.time⟩, ⟨l, none, some ColumnHint.logLevel⟩,
              ⟨m, none, some ColumnHint.logMessage⟩]) }
    | none => o
  else o

/-- A column of the Column Catalog: name and declared type
(spec section 2, Column Catalog Accessor). -/
structure CatalogColumn where
  name : String
  dataType : String
deriving DecidableEq, Repr

/-- Modelled from the spec: timestamp-like column types recognized by the
default time column rule; the excerpt leaves the exact set unspecified. -/
def isTimestampType (t : String) : Bool :=
  t == "timestamp" || t == "DateTime" || t == "DateTime64"

/-- Modelled from the spec: the recognized default-time-column naming
convention; the excerpt leaves the exact set unspecified. -/
def isDefaultTimeName (n : String) : Bool :=
  n == "timestamp" || n == "time" || n == "ts"

/-- One render observation made by the default time column rule: whether
the query is brand-new (never previously saved), the convention flag, and
the current Time-hinted column. -/
structure TimeRuleInput where
  isNewQuery : Bool
  otelEnabled : Bool
  timeColumn : Option SelectedColumn
deriving DecidableEq, Repr

/-- Modelled from the spec: one evaluation of the default time column rule
(`useDefaultTimeColumn` in `logsQueryBuilderHooks`, not among the presented
sources). With the at-most-once latch not yet set, it fires only on a
brand-new query with the convention flag disabled and no Time-hinted
column, proposing the first catalog column (in catalog order, hence
deterministic) of timestamp-like type whose name matches the
default-time-column convention; firing sets the latch, so the rule never
re-fires to overwrite a column the user later clears. -/
def timeRuleStep (catalog : List CatalogColumn) (fired : Bool) (inp : TimeRuleInput) :
    Bool × Option SelectedColumn :=
  if fired then (true, none)
  else if inp.isNewQuery && !inp.otelEnabled && inp.timeColumn.isNone then
    match catalog.find? (fun c => isTimestampType c.dataType && isDefaultTimeName c.name) with
    | some c => (true, some ⟨c.name, none, some ColumnHint.time⟩)
    | none => (false, none)
  else (false, none)

/-- Run the default time column rule over a sequence of renders, threading
the latch, collecting the proposal (if any) of each render. -/
def runTimeRule (catalog : List CatalogColumn) (fired : Bool) : List TimeRuleInput → List (Option SelectedColumn)
  | [] => []
  | inp :: rest =>
    (timeRuleStep catalog fired inp).2 :: runTimeRule catalog (timeRuleStep catalog fired inp).1 rest

/-- Number of renders in which a rule proposed something. -/
def countProposals {α : Type} (outs : List (Option α)) : Nat :=
  (outs.filterMap id).length

/-- A catalog column name seen for a fixture below. -/
def tsCatalog : List CatalogColumn := [⟨"message", "String"⟩, ⟨"timestamp", "timestamp"⟩]

/-- The render input of a brand-new query with no convention flag and no
Time column. -/
def freshRender : TimeRuleInput := ⟨true, false, none⟩

/-- One render observation made by the default filters/ordering rule: the
current Time-hinted column, filters and ordering. -/
structure FiltersRuleInput where
  timeColumn : Option SelectedColumn
  filters : List Filter
  orderBy : List OrderBy
deriving DecidableEq, Repr

/-- Modelled from the spec: the proposed default filter, a relative
time-range restriction on the time column; the excerpt leaves the literal
range unspecified. -/
def defaultTimeFilter (name : String) : Filter :=
  ⟨name, ">=", "now() - INTERVAL 1 HOUR", "AND"⟩

/-- Modelled from the spec: the proposed default ordering, by the time
column descending. -/
def defaultOrderEntry (name : String) : OrderBy := ⟨name, false⟩

/-- Modelled from the spec: one evaluation of the default filters/ordering
rule (`useDefaultFilters` in `logsQueryBuilderHooks`, not among the
presented sources). With the applied-latch unset, a render showing
non-empty filters or ordering marks the rule applied (the user has added
their own); a render with a Time-hinted column and both still empty fires
the proposal — one default filter and one default ordering — and sets the
latch, so the rule is not re-applied once the user has added or cleared
either. -/
def filtersRuleStep (applied : Bool) (inp : FiltersRuleInput) :
    Bool × Option (List Filter × List OrderBy) :=
  if applied then (true, none)
  else if !inp.filters.isEmpty || !inp.orderBy.isEmpty then (true, none)
  else
    match inp.timeColumn with
    | some c => (true, some ([defaultTimeFilter c.name], [defaultOrderEntry c.name]))
    | none => (false, none)

/-- Run the default filters/ordering rule over a sequence of renders,
threading the latch. -/
def runFiltersRule (applied : Bool) : List FiltersRuleInput → List (Option (List Filter × List OrderBy))
  | [] => []
  | inp :: rest =>
    (filtersRuleStep applied inp).2 :: runFiltersRule (filtersRuleStep applied inp).1 rest

/-- A fully-populated Option Model used to instantiate the round-trip
theorem. -/
def fullOptions : QueryBuilderOptions :=
  { mode := BuilderMode.list
    database := "default"
    table := "logs"
    columns := some [⟨"ts", none, some ColumnHint.time⟩, ⟨"host", none, none⟩,
      ⟨"body", none, some ColumnHint.logMessage⟩]
    aggregates := none
    groupBy := none
    filters := some [⟨"ts", ">=", "now() - INTERVAL 1 HOUR", "AND"⟩]
    orderBy := some [⟨"ts", false⟩]
    limit := some 20
    meta := none }

theorem applyLogsBatch_limit (s : LogsQueryBuilderState) (us : List LogsFieldUpdate) :
    (applyLogsBatch s us).limit = (lastWritten updLimit us).getD s.limit := by
  induction us generalizing s with
  | nil => rfl
  | cons u us ih =>
    show (applyLogsBatch (applyLogsUpdate s u) us).limit = _
    rw [ih]
    cases h : lastWritten updLimit us with
    | some v => simp [lastWritten, h]
    | none => cases u <;> simp [lastWritten, h, applyLogsUpdate, updLimit]

theorem applyLogsBatch_filters (s : LogsQueryBuilderState) (us : List LogsFieldUpdate) :
    (applyLogsBatch s us).filters = (lastWritten updFilters us).getD s.filters := by
  induction us generalizing s with
  | nil => rfl
  | cons u us ih =>
    show (applyLogsBatch (applyLogsUpdate s u) us).filters = _
    rw [ih]
    cases h : lastWritten updFilters us with
    | some v => simp [lastWritten, h]
    | none => cases u <;> simp [lastWritten, h, applyLogsUpdate, updFilters]

theorem applyLogsBatch_orderBy (s : LogsQueryBuilderState) (us : List LogsFieldUpdate) :
    (applyLogsBatch s us).orderBy = (lastWritten updOrderBy us).getD s.orderBy := by
  induction us generalizing s with
  | nil => rfl
  | cons u us ih =>
    show (applyLogsBatch (applyLogsUpdate s u) us).orderBy = _
    rw [ih]
    cases h : lastWritten updOrderBy us with
    | some v => simp [lastWritten, h]
    | none => cases u <;> simp [lastWritten, h, applyLogsUpdate, updOrderBy]

theorem applyLogsBatch_selectedColumns (s : LogsQueryBuilderState) (us : List LogsFieldUpdate) :
    (applyLogsBatch s us).selectedColumns = (lastWritten updSelectedColumns us).getD s.selectedColumns := by
  induction us generalizing s with
  | nil => rfl
  | cons u us ih =>
    show (applyLogsBatch (applyLogsUpdate s u) us).selectedColumns = _
    rw [ih]
    cases h : lastWritten updSelectedColumns us with
    | some v => simp [lastWritten, h]
    | none => cases u <;> simp [lastWritten, h, applyLogsUpdate, updSelectedColumns]

theorem applyLogsBatch_timeColumn (s : LogsQueryBuilderState) (us : List LogsFieldUpdate) :
    (applyLogsBatch s us).timeColumn = (lastWritten updTimeColumn us).getD s.timeColumn := by
  induction us generalizing s with
  | nil => rfl
  | cons u us ih =>
    show (applyLogsBatch (applyLogsUpdate s u) us).timeColumn = _
    rw [ih]
    cases h : lastWritten updTimeColumn us with
    | some v => simp [lastWritten, h]
    | none => cases u <;> simp [lastWritten, h, applyLogsUpdate, updTimeColumn]

theorem applyLogsBatch_logLevelColumn (s : LogsQueryBuilderState) (us : List LogsFieldUpdate) :
    (applyLogsBatch s us).logLevelColumn = (lastWritten updLogLevelColumn us).getD s.logLevelColumn := by
  induction us generalizing s with
  | nil => rfl
  | cons u us ih =>
    show (applyLogsBatch (applyLogsUpdate s u) us).logLevelColumn = _
    rw [ih]
    cases h : lastWritten updLogLevelColumn us with
    | some v => simp [lastWritten, h]
    | none => cases u <;> simp [lastWritten, h, applyLogsUpdate, updLogLevelColumn]

theorem applyLogsBatch_messageColumn (s : LogsQueryBuilderState) (us : List LogsFieldUpdate) :
    (applyLogsBatch s us).messageColumn = (lastWritten updMessageColumn us).getD s.messageColumn := by
  induction us generalizing s with
  | nil => rfl
  | cons u us ih =>
    show (applyLogsBatch (applyLogsUpdate s u) us).messageColumn = _
    rw [ih]
    cases h : lastWritten updMessageColumn us with
    | some v => simp [lastWritten, h]
    | none => cases u <;> simp [lastWritten, h, applyLogsUpdate, updMessageColumn]

theorem applyLogsBatch_otelEnabled (s : LogsQueryBuilderState) (us : List LogsFieldUpdate) :
    (applyLogsBatch s us).otelEnabled = (lastWritten updOtelEnabled us).getD s.otelEnabled := by
  induction us generalizing s with
  | nil => rfl
  | cons u us ih =>
    show (applyLogsBatch (applyLogsUpdate s u) us).otelEnabled = _
    rw [ih]
    cases h : lastWritten updOtelEnabled us with
    | some v => simp [lastWritten, h]
    | none => cases u <;> simp [lastWritten, h, applyLogsUpdate, updOtelEnabled]

theorem applyLogsBatch_otelVersion (s : LogsQueryBuilderState) (us : List LogsFieldUpdate) :
    (applyLogsBatch s us).otelVersion = (lastWritten updOtelVersion us).getD s.otelVersion := by
  induction us generalizing s with
  | nil => rfl
  | cons u us ih =>
    show (applyLogsBatch (applyLogsUpdate s u) us).otelVersion = _
    rw [ih]
    cases h : lastWritten updOtelVersion us with
    | some v => simp [lastWritten, h]
    | none => cases u <;> simp [lastWritten, h, applyLogsUpdate, updOtelVersion]

/-- A column excluded from the editable list by the Logs builder's filter
carries no hint at all (the model's hints are exactly the three log hints). -/
theorem hint_eq_none_of_not_logHint (c : SelectedColumn) (h : hasLogHint c = false) :
    c.hint = none := by
  cases hh : c.hint with
  | none => rfl
  | some hint => cases hint <;> simp [hasLogHint, hh] at h

/-- Every column of the decomposed editable list of the Logs builder is
unhinted: the decomposition filters out the hinted ones. -/
theorem logsBuilderState_selected_unhinted (o : QueryBuilderOptions) :
    ∀ c ∈ (logsBuilderState o).selectedColumns, c.hint = none := by
  intro c hc
  simp only [logsBuilderState, List.mem_filter] at hc
  exact hint_eq_none_of_not_logHint c (by simpa using hc.2)

/-- A column found by hint carries that hint. -/
theorem getColumnByHint_hint (o : QueryBuilderOptions) (h : ColumnHint) (c : SelectedColumn)
    (hfind : getColumnByHint o h = some c) : c.hint = some h := by
  have := List.find?_some hfind
  simpa using this

/-- Lists of pairwise-unhinted columns are trivially free of duplicate
hints. -/
theorem noDuplicateHints_of_unhinted (cols : List SelectedColumn)
    (h : ∀ c ∈ cols, c.hint = none) : noDuplicateHints cols := by
  induction cols with
  | nil => exact List.Pairwise.nil
  | cons c cs ih =>
    refine List.Pairwise.cons ?_ (ih (fun d hd => h d (List.mem_cons_of_mem c hd)))
    intro d _
    exact Or.inl (h c (List.mem_cons_self c cs))

/-- Hint uniqueness of the column list assembled by the Logs builder's
commit mapping, for any editable state whose column list is unhinted and
whose three slots carry their designated hints. -/
theorem commitLogs_columns_noDup (next : LogsQueryBuilderState)
    (hsel : ∀ c ∈ next.selectedColumns, c.hint = none)
    (ht : ∀ c, next.timeColumn = some c → c.hint = some ColumnHint.time)
    (hl : ∀ c, next.logLevelColumn = some c → c.hint = some ColumnHint.logLevel)
    (hm : ∀ c, next.messageColumn = some c → c.hint = some ColumnHint.logMessage) :
    noDuplicateHints (next.selectedColumns
      ++ pushOpt next.timeColumn ++ pushOpt next.logLevelColumn ++ pushOpt next.messageColumn) := by
  have hpushT : ∀ c ∈ pushOpt next.timeColumn, c.hint = some ColumnHint.time := by
    intro c hc
    cases htc : next.timeColumn with
    | none => simp [pushOpt, htc] at hc
    | some d =>
      simp [pushOpt, htc] at hc
      exact hc ▸ ht d htc
  have hpushL : ∀ c ∈ pushOpt next.logLevelColumn, c.hint = some ColumnHint.logLevel := by
    intro c hc
    cases htc : next.logLevelColumn with
    | none => simp [pushOpt, htc] at hc
    | some d =>
      simp [pushOpt, htc] at hc
      exact hc ▸ hl d htc
  have hpushM : ∀ c ∈ pushOpt next.messageColumn, c.hint = some ColumnHint.logMessage := by
    intro c hc
    cases htc : next.messageColumn with
    | none => simp [pushOpt, htc] at hc
    | some d =>
      simp [pushOpt, htc] at hc
      exact hc ▸ hm d htc
  have hsingle : ∀ (oc : Option SelectedColumn), (pushOpt oc).Pairwise hintDistinct := by
    intro oc
    cases oc <;> simp [pushOpt]
  refine (List.pairwise_append).mpr ⟨(List.pairwise_append).mpr ⟨(List.pairwise_append).mpr
    ⟨noDuplicateHints_of_unhinted next.selectedColumns hsel, hsingle _, ?_⟩, hsingle _, ?_⟩,
    hsingle _, ?_⟩
  · intro a ha b _
    exact Or.inl (hsel a ha)
  · intro a ha b hb
    rcases List.mem_append.mp ha with ha | ha
    · exact Or.inl (hsel a ha)
    · exact Or.inr (by rw [hpushT a ha, hpushL b hb]; simp)
  · intro a ha b hb
    rcases List.mem_append.mp ha with ha | ha
    · rcases List.mem_append.mp ha with ha | ha
      · exact Or.inl (hsel a ha)
      · exact Or.inr (by rw [hpushT a ha, hpushM b hb]; simp)
    · exact Or.inr (by rw [hpushL a ha, hpushM b hb]; simp)

/-- A last-written value in a batch is the payload of some update in the
batch. -/
theorem lastWritten_eq_some_mem {α : Type} (f : LogsFieldUpdate → Option α)
    (us : List LogsFieldUpdate) (v : α) (h : lastWritten f us = some v) :
    ∃ u ∈ us, f u = some v := by
  induction us with
  | nil => simp [lastWritten] at h
  | cons u us ih =>
    simp only [lastWritten] at h
    cases hl : lastWritten f us with
    | some w =>
      rw [hl] at h
      have hwv : w = v := by simpa using h
      subst hwv
      obtain ⟨u2, hu2, hfu2⟩ := ih hl
      exact ⟨u2, List.mem_cons_of_mem u hu2, hfu2⟩
    | none =>
      rw [hl] at h
      exact ⟨u, List.mem_cons_self u us, by simpa using h⟩

/-- C2: every Option Model reached by a transition of the Logs builder —
decompose any prior model into the editable state (which filters the
Time/LogLevel/LogMessage-hinted columns out of the editable column list),
merge any batch of well-formed editor updates, and recommit (re-appending
at most one column per hint) — has a committed column sequence in which no
two entries carry the same semantic hint. -/
theorem logs_transition_hint_unique (o prev : QueryBuilderOptions)
    (us : List LogsFieldUpdate) (hok : ∀ u ∈ us, LogsUpdateOk u) :
    noDuplicateHints ((commitLogsOptions prev (applyLogsBatch (logsBuilderState o) us)).columns.getD []) := by
  have hcols : (commitLogsOptions prev (applyLogsBatch (logsBuilderState o) us)).columns.getD []
      = (applyLogsBatch (logsBuilderState o) us).selectedColumns
        ++ pushOpt (applyLogsBatch (logsBuilderState o) us).timeColumn
        ++ pushOpt (applyLogsBatch (logsBuilderState o) us).logLevelColumn
        ++ pushOpt (applyLogsBatch (logsBuilderState o) us).messageColumn := by
    simp [commitLogsOptions]
  rw [hcols]
  apply commitLogs_columns_noDup
  · rw [applyLogsBatch_selectedColumns]
    cases hlast : lastWritten updSelectedColumns us with
    | none => simpa using logsBuilderState_selected_unhinted o
    | some cs =>
      obtain ⟨u, hu, hfu⟩ := lastWritten_eq_some_mem _ us cs hlast
      have := hok u hu
      cases u <;> simp [updSelectedColumns] at hfu
      subst hfu
      simpa [LogsUpdateOk] using this
  · rw [applyLogsBatch_timeColumn]
    cases hlast : lastWritten updTimeColumn us with
    | none =>
      intro c hc
      exact getColumnByHint_hint o ColumnHint.time c (by simpa [logsBuilderState] using hc)
    | some oc =>
      obtain ⟨u, hu, hfu⟩ := lastWritten_eq_some_mem _ us oc hlast
      have := hok u hu
      cases u <;> simp [updTimeColumn] at hfu
      subst hfu
      simpa [LogsUpdateOk] using this
  · rw [applyLogsBatch_logLevelColumn]
    cases hlast : lastWritten updLogLevelColumn us with
    | none =>
      intro c hc
      exact getColumnByHint_hint o ColumnHint.logLevel c (by simpa [logsBuilderState] using hc)
    | some oc =>
      obtain ⟨u, hu, hfu⟩ := lastWritten_eq_some_mem _ us oc hlast
      have := hok u hu
      cases u <;> simp [updLogLevelColumn] at hfu
      subst hfu
      simpa [LogsUpdateOk] using this
  · rw [applyLogsBatch_messageColumn]
    cases hlast : lastWritten updMessageColumn us with
    | none =>
      intro c hc
      exact getColumnByHint_hint o ColumnHint.logMessage c (by simpa [logsBuilderState] using hc)
    | some oc =>
      obtain ⟨u, hu, hfu⟩ := lastWritten_eq_some_mem _ us oc hlast
      have := hok u hu
      cases u <;> simp [updMessageColumn] at hfu
      subst hfu
      simpa [LogsUpdateOk] using this

/-- C1: for every batch of partial field updates merged before the system
settles, the merged state has, for each field, the last value written to
that field within the batch (fields not mentioned keep their pre-batch
snapshot value), and the Option Model committed by the Logs builder's
commit mapping reflects exactly those merged values — never an
intermediate, superseded snapshot. -/
theorem logs_batch_last_write_wins (prev : QueryBuilderOptions) (s : LogsQueryBuilderState)
    (us : List LogsFieldUpdate) :
    (applyLogsBatch s us).otelEnabled = (lastWritten updOtelEnabled us).getD s.otelEnabled ∧
    (applyLogsBatch s us).otelVersion = (lastWritten updOtelVersion us).getD s.otelVersion ∧
    (applyLogsBatch s us).selectedColumns = (lastWritten updSelectedColumns us).getD s.selectedColumns ∧
    (applyLogsBatch s us).timeColumn = (lastWritten updTimeColumn us).getD s.timeColumn ∧
    (applyLogsBatch s us).logLevelColumn = (lastWritten updLogLevelColumn us).getD s.logLevelColumn ∧
    (applyLogsBatch s us).messageColumn = (lastWritten updMessageColumn us).getD s.messageColumn ∧
    (applyLogsBatch s us).orderBy = (lastWritten updOrderBy us).getD s.orderBy ∧
    (applyLogsBatch s us).limit = (lastWritten updLimit us).getD s.limit ∧
    (applyLogsBatch s us).filters = (lastWritten updFilters us).getD s.filters ∧
    (commitLogsOptions prev (applyLogsBatch s us)).limit
      = some ((lastWritten updLimit us).getD s.limit) ∧
    (commitLogsOptions prev (applyLogsBatch s us)).filters
      = some ((lastWritten updFilters us).getD s.filters) ∧
    (commitLogsOptions prev (applyLogsBatch s us)).orderBy
      = some ((lastWritten updOrderBy us).getD s.orderBy) ∧
    (commitLogsOptions prev (applyLogsBatch s us)).columns
      = some (((lastWritten updSelectedColumns us).getD s.selectedColumns)
          ++ pushOpt ((lastWritten updTimeColumn us).getD s.timeColumn)
          ++ pushOpt ((lastWritten updLogLevelColumn us).getD s.logLevelColumn)
          ++ pushOpt ((lastWritten updMessageColumn us).getD s.messageColumn)) := by
  refine ⟨applyLogsBatch_otelEnabled s us, applyLogsBatch_otelVersion s us,
    applyLogsBatch_selectedColumns s us, applyLogsBatch_timeColumn s us,
    applyLogsBatch_logLevelColumn s us, applyLogsBatch_messageColumn s us,
    applyLogsBatch_orderBy s us, applyLogsBatch_limit s us, applyLogsBatch_filters s us,
    ?_, ?_, ?_, ?_⟩ <;>
  simp [commitLogsOptions, applyLogsBatch_limit, applyLogsBatch_filters,
    applyLogsBatch_orderBy, applyLogsBatch_selectedColumns, applyLogsBatch_timeColumn,
    applyLogsBatch_logLevelColumn, applyLogsBatch_messageColumn]

/-- C3: every Option Model committed by the Table builder while the mode is
List has empty aggregates and groupBy; after a List to Aggregate to List
mode cycle the aggregates and group-bys set during the Aggregate phase are
cleared (not hidden) by the first List-mode commit, and the editable state
decomposed from that model shows them empty, so they are not restored on
switching to Aggregate again. The intermediate Aggregate-mode commit did
hold them. -/
theorem table_mode_cycle_clears_aggregates (m0 : QueryBuilderOptions)
    (sA sL : TableQueryBuilderState) :
    (commitTableOptions false m0 sL).aggregates = some [] ∧
    (commitTableOptions false m0 sL).groupBy = some [] ∧
    (commitTableOptions true m0 sA).aggregates = some sA.aggregates ∧
    (commitTableOptions true m0 sA).groupBy = some sA.groupBy ∧
    (commitTableOptions false (commitTableOptions true m0 sA) sL).mode = BuilderMode.list ∧
    (commitTableOptions false (commitTableOptions true m0 sA) sL).aggregates = some [] ∧
    (commitTableOptions false (commitTableOptions true m0 sA) sL).groupBy = some [] ∧
    (tableBuilderState (commitTableOptions false (commitTableOptions true m0 sA) sL)).aggregates = [] ∧
    (tableBuilderState (commitTableOptions false (commitTableOptions true m0 sA) sL)).groupBy = [] := by
  refine ⟨rfl, rfl, rfl, rfl, rfl, rfl, rfl, ?_, ?_⟩ <;> simp [tableBuilderState, commitTableOptions]

/-- C4: a List to Aggregate mode transition is a component-local flag flip
that dispatches nothing, so the committed Option Model — in particular its
columns — is unchanged by the transition; the Aggregate-mode working state
decomposed from a model last committed in List mode starts with empty
aggregates and groupBy; and the first Aggregate-mode commit carries the
columns of the working state just as a List-mode commit would. -/
theorem table_list_to_aggregate_init (m0 : QueryBuilderOptions) (sL s : TableQueryBuilderState) :
    (tableBuilderState (commitTableOptions false m0 sL)).aggregates = [] ∧
    (tableBuilderState (commitTableOptions false m0 sL)).groupBy = [] ∧
    (tableBuilderState (commitTableOptions false m0 sL)).selectedColumns = sL.selectedColumns ∧
    (commitTableOptions true (commitTableOptions false m0 sL) s).columns = some s.selectedColumns ∧
    (commitTableOptions true m0 s).columns = (commitTableOptions false m0 s).columns := by
  refine ⟨?_, ?_, ?_, rfl, rfl⟩ <;> simp [tableBuilderState, commitTableOptions]

/-- C5: the Table builder's initial mode at mount is Aggregate exactly when
the loaded Option Model's aggregates sequence is present and non-empty; a
missing aggregates field counts as empty and gives List mode. -/
theorem initial_mode_iff_aggregates (o : QueryBuilderOptions) :
    (initialAggregateMode o = true ↔ ∃ l, o.aggregates = some l ∧ l ≠ []) ∧
    (o.aggregates = none → initialAggregateMode o = false) := by
  constructor
  · cases h : o.aggregates with
    | none => simp [initialAggregateMode, h]
    | some l =>
      simp only [initialAggregateMode, h]
      constructor
      · intro hl
        refine ⟨l, rfl, ?_⟩
        intro hnil
        simp [hnil] at hl
      · rintro ⟨l2, hl2, hne⟩
        cases hl2
        simpa [List.length_pos] using hne
  · intro h
    simp [initialAggregateMode, h]

theorem initial_mode_iff_aggregates_witness :
    initialAggregateMode sampleOptions = false :=
  (initial_mode_iff_aggregates sampleOptions).2 rfl

theorem logs_transition_hint_unique_witness :
    noDuplicateHints ((commitLogsOptions sampleOptions (applyLogsBatch (logsBuilderState sampleOptions)
      [LogsFieldUpdate.setTimeColumn (some ⟨"timestamp", none, some ColumnHint.time⟩),
       LogsFieldUpdate.setLimit 50])).columns.getD []) :=
  logs_transition_hint_unique sampleOptions sampleOptions
    [LogsFieldUpdate.setTimeColumn (some ⟨"timestamp", none, some ColumnHint.time⟩),
     LogsFieldUpdate.setLimit 50] (by decide)

/-- C6: a negative value entered at the limit boundary (for example -5) is
clamped to 0, so the Option Model committed by the Logs builder after the
limit setter fires carries limit 0, never a negative value; in general the
committed limit through this boundary is non-negative. -/
theorem limit_clamped_nonneg (prev : QueryBuilderOptions) (s : LogsQueryBuilderState)
    (v : Int) (hv : v < 0) :
    clampLimit v = 0 ∧
    (commitLogsOptions prev (applyLogsUpdate s (LogsFieldUpdate.setLimit (clampLimit v)))).limit = some 0 ∧
    (∀ w : Int, 0 ≤ clampLimit w) := by
  have h0 : clampLimit v = 0 := by
    simp only [clampLimit]
    omega
  refine ⟨h0, ?_, fun w => le_max_right w 0⟩
  simp [commitLogsOptions, applyLogsUpdate, h0]

theorem limit_clamped_nonneg_witness :
    clampLimit (-5) = 0 ∧
    (commitLogsOptions sampleOptions (applyLogsUpdate (logsBuilderState sampleOptions)
      (LogsFieldUpdate.setLimit (clampLimit (-5))))).limit = some 0 ∧
    (∀ w : Int, 0 ≤ clampLimit w) :=
  limit_clamped_nonneg sampleOptions (logsBuilderState sampleOptions) (-5) (by decide)

/-- Unhinted columns contribute no hit to a hint lookup. -/
theorem find?_hint_filtered (cols : List SelectedColumn) (h : ColumnHint) :
    (cols.filter (fun c => !(hasLogHint c))).find? (fun c => c.hint == some h) = none := by
  rw [List.find?_eq_none]
  intro c hc
  have hn : c.hint = none := hint_eq_none_of_not_logHint c (by simpa using (List.mem_filter.mp hc).2)
  simp [hn]

/-- C7: for every prior Option Model, running the schema-convention rule
with the flag enabled and a known version deterministically sets the
Time-, LogLevel- and LogMessage-hinted columns to that version's fixed
names, overwriting whatever columns previously carried those hints; the
rule is a pure function of the flag, the version and the model, so it
yields the same three hinted columns whenever it re-runs on a flag or
version change. -/
theorem otel_rule_sets_hinted_columns (o : QueryBuilderOptions) (version t l m : String)
    (hver : otelVersionColumns version = some (t, l, m)) :
    getColumnByHint (applyOtelColumnsRule true version o) ColumnHint.time
      = some ⟨t, none, some ColumnHint.time⟩ ∧
    getColumnByHint (applyOtelColumnsRule true version o) ColumnHint.logLevel
      = some ⟨l, none, some ColumnHint.logLevel⟩ ∧
    getColumnByHint (applyOtelColumnsRule true version o) ColumnHint.logMessage
      = some ⟨m, none, some ColumnHint.logMessage⟩ := by
  have hrule : applyOtelColumnsRule true version o
      = { o with columns := some (((o.columns.getD []).filter (fun c => !(hasLogHint c)))
          ++ [⟨t, none, some ColumnHint.time⟩, ⟨l, none, some ColumnHint.logLevel⟩,
              ⟨m, none, some ColumnHint.logMessage⟩]) } := by
    simp [applyOtelColumnsRule, hver]
  refine ⟨?_, ?_, ?_⟩ <;>
    simp [hrule, getColumnByHint, List.find?_append, find?_hint_filtered] <;>
    exact Or.inr (fun x _ hx2 => by simp [hint_eq_none_of_not_logHint x hx2])

theorem otel_rule_sets_hinted_columns_witness :
    getColumnByHint (applyOtelColumnsRule true "v1" sampleOptions) ColumnHint.time
      = some ⟨"Timestamp", none, some ColumnHint.time⟩ ∧
    getColumnByHint (applyOtelColumnsRule true "v1" sampleOptions) ColumnHint.logLevel
      = some ⟨"SeverityText", none, some ColumnHint.logLevel⟩ ∧
    getColumnByHint (applyOtelColumnsRule true "v1" sampleOptions) ColumnHint.logMessage
      = some ⟨"Body", none, some ColumnHint.logMessage⟩ :=
  otel_rule_sets_hinted_columns sampleOptions "v1" "Timestamp" "SeverityText" "Body" rfl

theorem timeRuleStep_fired (catalog : List CatalogColumn) (inp : TimeRuleInput) :
    timeRuleStep catalog true inp = (true, none) := rfl

theorem runTimeRule_fired (catalog : List CatalogColumn) (inputs : List TimeRuleInput) :
    countProposals (runTimeRule catalog true inputs) = 0 := by
  induction inputs with
  | nil => rfl
  | cons inp rest ih => simpa [runTimeRule, timeRuleStep_fired, countProposals] using ih

theorem timeRuleStep_false_cases (catalog : List CatalogColumn) (inp : TimeRuleInput) :
    timeRuleStep catalog false inp = (false, none) ∨
    ∃ c, timeRuleStep catalog false inp = (true, some c) := by
  simp only [timeRuleStep, if_neg (by simp : ¬(false = true))]
  split
  · split
    · exact Or.inr ⟨_, rfl⟩
    · exact Or.inl rfl
  · exact Or.inl rfl

/-- C8: on a brand-new (never previously saved) query with the convention
flag disabled and no Time-hinted column, the default time column rule
proposes a catalog column of timestamp-like type matching the
default-time-column naming convention; over any sequence of renders the
rule proposes at most once, and in the concrete fresh-query scenario it
proposes the catalog's "timestamp" column on the first render and stays
silent on the next render even though the Time column is empty again
(as after an intentional clearing by the user). -/
theorem default_time_rule_once :
    (∀ (catalog : List CatalogColumn) (inputs : List TimeRuleInput),
      countProposals (runTimeRule catalog false inputs) ≤ 1) ∧
    (∀ (catalog : List CatalogColumn) (inp : TimeRuleInput) (c : SelectedColumn),
      (timeRuleStep catalog false inp).2 = some c →
      inp.isNewQuery = true ∧ inp.otelEnabled = false ∧ inp.timeColumn = none ∧
      ∃ cc ∈ catalog, isTimestampType cc.dataType = true ∧ isDefaultTimeName cc.name = true ∧
        c = ⟨cc.name, none, some ColumnHint.time⟩) ∧
    runTimeRule tsCatalog false [freshRender, freshRender]
      = [some ⟨"timestamp", none, some ColumnHint.time⟩, none] := by
  refine ⟨?_, ?_, by decide⟩
  · intro catalog inputs
    induction inputs with
    | nil => simp [runTimeRule, countProposals]
    | cons inp rest ih =>
      rcases timeRuleStep_false_cases catalog inp with h | ⟨c, h⟩
      · simpa [runTimeRule, h, countProposals] using ih
      · simp [runTimeRule, h, countProposals]
        have := runTimeRule_fired catalog rest
        simpa [countProposals] using Nat.le_of_eq this
  · intro catalog inp c h
    simp only [timeRuleStep, if_neg (by simp : ¬(false = true))] at h
    split at h
    · next htrig =>
      simp only [Bool.and_eq_true, Bool.not_eq_true'] at htrig
      obtain ⟨⟨hnew, hotel⟩, hnone⟩ := htrig
      refine ⟨hnew, hotel, Option.isNone_iff_eq_none.mp hnone, ?_⟩
      split at h
      · next cc hfind =>
        have hmem := List.mem_of_find?_eq_some hfind
        have hpred := List.find?_some hfind
        simp only [Bool.and_eq_true] at hpred
        have hc : c = ⟨cc.name, none, some ColumnHint.time⟩ := by
          simpa using h.symm
        exact ⟨cc, hmem, hpred.1, hpred.2, hc⟩
      · simp at h
    · simp at h

theorem default_time_rule_once_witness :
    freshRender.isNewQuery = true ∧ freshRender.otelEnabled = false ∧
    freshRender.timeColumn = none ∧
    ∃ cc ∈ tsCatalog, isTimestampType cc.dataType = true ∧ isDefaultTimeName cc.name = true ∧
      (⟨"timestamp", none, some ColumnHint.time⟩ : SelectedColumn)
        = ⟨cc.name, none, some ColumnHint.time⟩ :=
  default_time_rule_once.2.1 tsCatalog freshRender ⟨"timestamp", none, some ColumnHint.time⟩ (by decide)

theorem filtersRuleStep_applied (inp : FiltersRuleInput) :
    filtersRuleStep true inp = (true, none) := rfl

theorem runFiltersRule_applied (inputs : List FiltersRuleInput) :
    countProposals (runFiltersRule true inputs) = 0 := by
  induction inputs with
  | nil => rfl
  | cons inp rest ih => simpa [runFiltersRule, filtersRuleStep_applied, countProposals] using ih

theorem filtersRuleStep_false_cases (inp : FiltersRuleInput) :
    filtersRuleStep false inp = (false, none) ∨
    ∃ p, filtersRuleStep false inp = (true, p) := by
  simp only [filtersRuleStep, if_neg (by simp : ¬(false = true))]
  split
  · exact Or.inr ⟨_, rfl⟩
  · split
    · exact Or.inr ⟨_, rfl⟩
    · exact Or.inl rfl

/-- C9: when a Time-hinted column is available and both filters and
ordering are still empty, the default filters/ordering rule proposes
exactly one default filter (a relative time-range restriction on that
column) and one default ordering (that column, descending); a render with
user-added filters or ordering proposes nothing and retires the rule, and
over any sequence of renders the rule proposes at most once — so it is not
re-applied after the user adds or clears filters or ordering. -/
theorem default_filters_rule_once :
    (∀ c : SelectedColumn, filtersRuleStep false ⟨some c, [], []⟩
      = (true, some ([defaultTimeFilter c.name], [defaultOrderEntry c.name]))) ∧
    (∀ inp : FiltersRuleInput, inp.filters ≠ [] ∨ inp.orderBy ≠ [] →
      (filtersRuleStep false inp).2 = none ∧ (filtersRuleStep false inp).1 = true) ∧
    (∀ inputs : List FiltersRuleInput, countProposals (runFiltersRule true inputs) = 0) ∧
    (∀ inputs : List FiltersRuleInput, countProposals (runFiltersRule false inputs) ≤ 1) := by
  refine ⟨fun c => rfl, ?_, runFiltersRule_applied, ?_⟩
  · intro inp hne
    have hcond : (!inp.filters.isEmpty || !inp.orderBy.isEmpty) = true := by
      rcases hne with hne | hne <;> simp [List.isEmpty_iff, hne]
    constructor <;>
      simp [filtersRuleStep, hcond]
  · intro inputs
    induction inputs with
    | nil => simp [runFiltersRule, countProposals]
    | cons inp rest ih =>
      rcases filtersRuleStep_false_cases inp with h | ⟨p, h⟩
      · simpa [runFiltersRule, h, countProposals] using ih
      · cases p with
        | none =>
          have h0 := runFiltersRule_applied rest
          simp only [countProposals, runFiltersRule, h, List.filterMap_cons, id] at h0 ⊢
          omega
        | some pr =>
          have h0 := runFiltersRule_applied rest
          simp only [countProposals, runFiltersRule, h, List.filterMap_cons, id] at h0 ⊢
          simp only [List.length_cons]
          omega

theorem default_filters_rule_once_witness :
    (filtersRuleStep false ⟨none, [defaultTimeFilter "ts"], []⟩).2 = none ∧
    (filtersRuleStep false ⟨none, [defaultTimeFilter "ts"], []⟩).1 = true :=
  default_filters_rule_once.2.1 ⟨none, [defaultTimeFilter "ts"], []⟩
    (Or.inl (by decide))

theorem jsOrZero_some (l : Int) : jsOrZero (some l) = l := by
  by_cases h : l = 0 <;> simp [jsOrZero, h]

/-- Splitting a hint-unique column list into its unhinted part followed by
the (at most one) Time-, LogLevel- and LogMessage-hinted entries is a
permutation of the list. -/
theorem filter_find_perm (cols : List SelectedColumn) (hU : noDuplicateHints cols) :
    List.Perm (cols.filter (fun c => !(hasLogHint c))
      ++ pushOpt (cols.find? (fun x => x.hint == some ColumnHint.time))
      ++ pushOpt (cols.find? (fun x => x.hint == some ColumnHint.logLevel))
      ++ pushOpt (cols.find? (fun x => x.hint == some ColumnHint.logMessage))) cols := by
  induction cols with
  | nil => simp [pushOpt]
  | cons c cs ih =>
    obtain ⟨hhead, htail⟩ := List.pairwise_cons.mp hU
    have ihp := ih htail
    have hfindnone : ∀ h : ColumnHint, c.hint = some h →
        cs.find? (fun x => x.hint == some h) = none := by
      intro h hh
      rw [List.find?_eq_none]
      intro d hd
      rcases hhead d hd with h1 | h1
      · rw [hh] at h1
        cases h1
      · rw [hh] at h1
        simp [Ne.symm h1]
    cases hh : c.hint with
    | none =>
      have hfil : hasLogHint c = false := by simp [hasLogHint, hh]
      have pt : (c.hint == some ColumnHint.time) = false := by simp [hh]
      have pl : (c.hint == some ColumnHint.logLevel) = false := by simp [hh]
      have pm : (c.hint == some ColumnHint.logMessage) = false := by simp [hh]
      simp only [List.filter_cons, hfil, Bool.not_false, if_true, List.find?_cons, pt, pl, pm,
        List.cons_append]
      exact ihp.cons c
    | some hint =>
      have hfil : hasLogHint c = true := by cases hint <;> simp [hasLogHint, hh]
      cases hint with
      | time =>
        have pt : (c.hint == some ColumnHint.time) = true := by simp [hh]
        have pl : (c.hint == some ColumnHint.logLevel) = false := by simp [hh]
        have pm : (c.hint == some ColumnHint.logMessage) = false := by simp [hh]
        have hnone := hfindnone ColumnHint.time hh
        have hred : (c :: cs).filter (fun x => !(hasLogHint x))
            ++ pushOpt ((c :: cs).find? (fun x => x.hint == some ColumnHint.time))
            ++ pushOpt ((c :: cs).find? (fun x => x.hint == some ColumnHint.logLevel))
            ++ pushOpt ((c :: cs).find? (fun x => x.hint == some ColumnHint.logMessage))
            = cs.filter (fun x => !(hasLogHint x))
              ++ c :: (pushOpt (cs.find? (fun x => x.hint == some ColumnHint.logLevel))
                ++ pushOpt (cs.find? (fun x => x.hint == some ColumnHint.logMessage))) := by
          simp [List.filter_cons, List.find?_cons, hfil, pt, pl, pm, pushOpt]
        rw [hred]
        refine List.Perm.trans List.perm_middle (List.Perm.cons c ?_)
        have hperm := ihp
        rw [hnone] at hperm
        have hgoal : List.Perm (cs.filter (fun x => !(hasLogHint x))
            ++ (pushOpt (cs.find? (fun x => x.hint == some ColumnHint.logLevel))
              ++ pushOpt (cs.find? (fun x => x.hint == some ColumnHint.logMessage)))) cs := by
          simpa [pushOpt, List.append_assoc] using hperm
        exact hgoal
      | logLevel =>
        have pt : (c.hint == some ColumnHint.time) = false := by simp [hh]
        have pl : (c.hint == some ColumnHint.logLevel) = true := by simp [hh]
        have pm : (c.hint == some ColumnHint.logMessage) = false := by simp [hh]
        have hnone := hfindnone ColumnHint.logLevel hh
        have hred : (c :: cs).filter (fun x => !(hasLogHint x))
            ++ pushOpt ((c :: cs).find? (fun x => x.hint == some ColumnHint.time))
            ++ pushOpt ((c :: cs).find? (fun x => x.hint == some ColumnHint.logLevel))
            ++ pushOpt ((c :: cs).find? (fun x => x.hint == some ColumnHint.logMessage))
            = (cs.filter (fun x => !(hasLogHint x))
              ++ pushOpt (cs.find? (fun x => x.hint == some ColumnHint.time)))
              ++ c :: pushOpt (cs.find? (fun x => x.hint == some ColumnHint.logMessage)) := by
          simp [List.filter_cons, List.find?_cons, hfil, pt, pl, pm, pushOpt]
        rw [hred]
        refine List.Perm.trans List.perm_middle (List.Perm.cons c ?_)
        have hperm := ihp
        rw [hnone] at hperm
        have hgoal : List.Perm ((cs.filter (fun x => !(hasLogHint x))
            ++ pushOpt (cs.find? (fun x => x.hint == some ColumnHint.time)))
            ++ pushOpt (cs.find? (fun x => x.hint == some ColumnHint.logMessage))) cs := by
          simpa [pushOpt, List.append_assoc] using hperm
        exact hgoal
      | logMessage =>
        have pt : (c.hint == some ColumnHint.time) = false := by simp [hh]
        have pl : (c.hint == some ColumnHint.logLevel) = false := by simp [hh]
        have pm : (c.hint == some ColumnHint.logMessage) = true := by simp [hh]
        have hnone := hfindnone ColumnHint.logMessage hh
        have hred : (c :: cs).filter (fun x => !(hasLogHint x))
            ++ pushOpt ((c :: cs).find? (fun x => x.hint == some ColumnHint.time))
            ++ pushOpt ((c :: cs).find? (fun x => x.hint == some ColumnHint.logLevel))
            ++ pushOpt ((c :: cs).find? (fun x => x.hint == some ColumnHint.logMessage))
            = (cs.filter (fun x => !(hasLogHint x))
              ++ pushOpt (cs.find? (fun x => x.hint == some ColumnHint.time))
              ++ pushOpt (cs.find? (fun x => x.hint == some ColumnHint.logLevel)))
              ++ c :: ([] : List SelectedColumn) := by
          simp [List.filter_cons, List.find?_cons, hfil, pt, pl, pm, pushOpt]
        rw [hred]
        refine List.Perm.trans List.perm_middle (List.Perm.cons c ?_)
        have hperm := ihp
        rw [hnone] at hperm
        have hgoal : List.Perm ((cs.filter (fun x => !(hasLogHint x))
            ++ pushOpt (cs.find? (fun x => x.hint == some ColumnHint.time))
            ++ pushOpt (cs.find? (fun x => x.hint == some ColumnHint.logLevel)))
            ++ ([] : List SelectedColumn)) cs := by
          simpa [pushOpt, List.append_assoc] using hperm
        exact hgoal

/-- C10: decomposing an Option Model with hint-unique columns into the Logs
builder's editable state and immediately recommitting it yields a committed
column sequence that is a permutation of the original columns — unhinted
columns first, then the Time-, LogLevel- and LogMessage-hinted columns,
each appearing once, none lost — while filters, orderBy and limit are
committed unchanged. -/
theorem logs_decompose_recommit_roundtrip (o : QueryBuilderOptions)
    (cs : List SelectedColumn) (f : List Filter) (ob : List OrderBy) (l : Int)
    (hc : o.columns = some cs) (hU : noDuplicateHints cs)
    (hf : o.filters = some f) (hob : o.orderBy = some ob) (hl : o.limit = some l) :
    List.Perm ((commitLogsOptions o (logsBuilderState o)).columns.getD []) cs ∧
    (commitLogsOptions o (logsBuilderState o)).columns.getD []
      = cs.filter (fun c => !(hasLogHint c))
        ++ pushOpt (getColumnByHint o ColumnHint.time)
        ++ pushOpt (getColumnByHint o ColumnHint.logLevel)
        ++ pushOpt (getColumnByHint o ColumnHint.logMessage) ∧
    (commitLogsOptions o (logsBuilderState o)).filters = some f ∧
    (commitLogsOptions o (logsBuilderState o)).orderBy = some ob ∧
    (commitLogsOptions o (logsBuilderState o)).limit = some l := by
  have hcols : (commitLogsOptions o (logsBuilderState o)).columns.getD []
      = cs.filter (fun c => !(hasLogHint c))
        ++ pushOpt (getColumnByHint o ColumnHint.time)
        ++ pushOpt (getColumnByHint o ColumnHint.logLevel)
        ++ pushOpt (getColumnByHint o ColumnHint.logMessage) := by
    simp [commitLogsOptions, logsBuilderState, hc]
  refine ⟨?_, hcols, ?_, ?_, ?_⟩
  · rw [hcols]
    have hfind : ∀ h : ColumnHint, getColumnByHint o h = cs.find? (fun x => x.hint == some h) := by
      intro h
      simp [getColumnByHint, hc]
    rw [hfind, hfind, hfind]
    exact filter_find_perm cs hU
  · simp [commitLogsOptions, logsBuilderState, hf]
  · simp [commitLogsOptions, logsBuilderState, hob]
  · simp [commitLogsOptions, logsBuilderState, hl, jsOrZero_some]

theorem logs_decompose_recommit_roundtrip_witness :
    List.Perm ((commitLogsOptions fullOptions (logsBuilderState fullOptions)).columns.getD [])
      [⟨"ts", none, some ColumnHint.time⟩, ⟨"host", none, none⟩,
        ⟨"body", none, some ColumnHint.logMessage⟩] ∧
    (commitLogsOptions fullOptions (logsBuilderState fullOptions)).columns.getD []
      = ([⟨"ts", none, some ColumnHint.time⟩, ⟨"host", none, none⟩,
          ⟨"body", none, some ColumnHint.logMessage⟩] : List SelectedColumn).filter
            (fun c => !(hasLogHint c))
        ++ pushOpt (getColumnByHint fullOptions ColumnHint.time)
        ++ pushOpt (getColumnByHint fullOptions ColumnHint.logLevel)
        ++ pushOpt (getColumnByHint fullOptions ColumnHint.logMessage) ∧
    (commitLogsOptions fullOptions (logsBuilderState fullOptions)).filters
      = some [⟨"ts", ">=", "now() - INTERVAL 1 HOUR", "AND"⟩] ∧
    (commitLogsOptions fullOptions (logsBuilderState fullOptions)).orderBy
      = some [⟨"ts", false⟩] ∧
    (commitLogsOptions fullOptions (logsBuilderState fullOptions)).limit = some 20 :=
  logs_decompose_recommit_roundtrip fullOptions
    [⟨"ts", none, some ColumnHint.time⟩, ⟨"host", none, none⟩,
      ⟨"body", none, some ColumnHint.logMessage⟩]
    [⟨"ts", ">=", "now() - INTERVAL 1 HOUR", "AND"⟩] [⟨"ts", false⟩] 20
    rfl (by decide) rfl rfl rfl

end CHQB


